import Mathlib

/-
Verification of the CSE 140 course-website staff pipeline:
the build-time Canvas roster fetch / bio reconciliation step and the
render-time staff lookup in `src/pages/TeachingStaff.tsx`, the iframe
preloader listener registry in `src/hooks/use-iframe-preloader.tsx`,
and the orchestrating shell script `build-with-canvas.sh`.

JavaScript strings are modelled as Lean `String`s, with character-level
reasoning done on their `List Char` data.  `String.prototype.toLowerCase`
is modelled by `Char.toLower` mapped over the characters (the names in
play are basic-latin), and `String.prototype.trim` by dropping whitespace
characters from both ends.
-/

namespace Website

/-- Model of `String.prototype.trim` on the character list of a string:
drop whitespace from the front, then from the back. -/
def jsTrim (cs : List Char) : List Char :=
  ((cs.dropWhile Char.isWhitespace).reverse.dropWhile Char.isWhitespace).reverse

/-- Normalized form of a name, exactly as computed in
`TeachingStaff.tsx`: `name.toLowerCase().trim()`
(lower-case first, then trim). -/
def normName (s : String) : List Char :=
  jsTrim (s.data.map Char.toLower)

/-- The comparison `a.toLowerCase().trim() === b.toLowerCase().trim()`
used for all name matching in the pipeline. -/
def nameEq (a b : String) : Bool :=
  decide (normName a = normName b)

/-- The spec-side normalized form, read in the other order:
trim the name first, then case-fold it. -/
def trimThenFold (s : String) : List Char :=
  (jsTrim s.data).map Char.toLower

end Website

namespace Website

theorem toNat_ofNat_of_valid (n : Nat) (h : n.isValidChar) :
    (Char.ofNat n).toNat = n := by
  simp only [Char.ofNat]
  rw [dif_pos h]
  rfl

theorem not_isWhitespace_of_toNat (c : Char) (h : 33 ≤ c.toNat) :
    c.isWhitespace = false := by
  simp only [Char.isWhitespace, Bool.or_eq_false_iff, decide_eq_false_iff_not]
  refine ⟨⟨⟨?_, ?_⟩, ?_⟩, ?_⟩ <;> intro he <;> subst he <;>
    exact absurd h (by decide)

theorem isWhitespace_toLower (c : Char) :
    (Char.toLower c).isWhitespace = c.isWhitespace := by
  unfold Char.toLower
  show (if c.toNat ≥ 65 ∧ c.toNat ≤ 90 then
      Char.ofNat (c.toNat + 32) else c).isWhitespace = c.isWhitespace
  by_cases h : c.toNat ≥ 65 ∧ c.toNat ≤ 90
  · rw [if_pos h]
    have h1 : (Char.ofNat (c.toNat + 32)).toNat = c.toNat + 32 :=
      toNat_ofNat_of_valid _ (Or.inl (by omega))
    rw [not_isWhitespace_of_toNat _ (by omega),
        not_isWhitespace_of_toNat _ (by omega)]
  · rw [if_neg h]

theorem jsTrim_map_toLower (cs : List Char) :
    jsTrim (cs.map Char.toLower) = (jsTrim cs).map Char.toLower := by
  have hfun : (Char.isWhitespace ∘ Char.toLower) = Char.isWhitespace :=
    funext fun c => isWhitespace_toLower c
  unfold jsTrim
  rw [List.dropWhile_map, hfun, ← List.map_reverse, List.dropWhile_map, hfun,
      ← List.map_reverse]

theorem normName_eq_trimThenFold (s : String) :
    normName s = trimThenFold s := by
  unfold normName trimThenFold
  exact jsTrim_map_toLower s.data

end Website

namespace Website

/-- A staff member as it appears in the persisted roster snapshot
(`canvas-staff.json`): display name, email, and an opaque source-system
id.  The name is the sole join key across the pipeline. -/
structure Person where
  name : String
  email : String
  id : String
deriving DecidableEq

/-- One entry of the persisted bios file (`instructor-bio.json`):
the display name, an optional title and an optional free-text bio.
An absent or empty bio is treated as "no bio" at render time. -/
structure BioEntry where
  name : String
  title : Option String
  bio : Option String
deriving DecidableEq

/-- The persisted bios file: a sequence of entries (order reflects file
history and manual edits). -/
structure BiosRecord where
  entries : List BioEntry
deriving DecidableEq

/-- Does some entry of `entries` match person `p` under the normalized
name comparison? -/
def hasMatch (entries : List BioEntry) (p : Person) : Bool :=
  entries.any fun e => nameEq e.name p.name

/-- Modelled from the spec: the fixed fallback bio text the Reconciler
writes for a newly appended instructor (the reconciliation script
`fetch-canvas-staff.py` is not part of the checked sources; the spec
only requires the string to be fixed). -/
def reconcilerFallback : String :=
  "Bio not available for this instructor."

/-- Modelled from the spec: the `BioEntry` appended for an instructor
with no matching entry — name copied verbatim from the roster, no
title, and the fixed fallback bio. -/
def mkFallbackEntry (p : Person) : BioEntry :=
  { name := p.name, title := none, bio := some reconcilerFallback }

/-- Modelled from the spec: the Reconciler core loop of
`fetch-canvas-staff.py` (not part of the checked sources).  It walks
the instructors in roster order and appends a fallback entry for each
person whose normalized name matches no entry accumulated so far, so
that prior entries are untouched and no duplicate is ever appended. -/
def appendNew : List BioEntry → List Person → List BioEntry
  | entries, [] => entries
  | entries, p :: ps =>
    if hasMatch entries p then appendNew entries ps
    else appendNew (entries ++ [mkFallbackEntry p]) ps

/-- Modelled from the spec: the Bio Reconciler — merge the roster
instructor list into the persisted bios record by appending fallback
entries for unmatched instructors. -/
def reconcile (inst : List Person) (b : BiosRecord) : BiosRecord :=
  ⟨appendNew b.entries inst⟩

/-- The entries `appendNew` adds after the existing ones, computed on
their own (used to state what reconciliation appends). -/
def newEntries : List BioEntry → List Person → List BioEntry
  | _, [] => []
  | entries, p :: ps =>
    if hasMatch entries p then newEntries entries ps
    else mkFallbackEntry p :: newEntries (entries ++ [mkFallbackEntry p]) ps

end Website

namespace Website

/-- Hexadecimal digit character (upper case), for percent-encoding. -/
def hexDigitChar (n : Nat) : Char :=
  if n < 10 then Char.ofNat (48 + n) else Char.ofNat (55 + n)

/-- Percent-encoding `%HH` of one byte. -/
def percentByte (b : Nat) : List Char :=
  [Char.ofNat 37, hexDigitChar (b / 16), hexDigitChar (b % 16)]

/-- UTF-8 bytes of a character, by code-point arithmetic. -/
def utf8Bytes (c : Char) : List Nat :=
  let n := c.toNat
  if n < 128 then [n]
  else if n < 2048 then [192 + n / 64, 128 + n % 64]
  else if n < 65536 then [224 + n / 4096, 128 + (n / 64) % 64, 128 + n % 64]
  else [240 + n / 262144, 128 + (n / 4096) % 64, 128 + (n / 64) % 64,
        128 + n % 64]

/-- Characters that `encodeURIComponent` leaves unescaped:
letters, digits and `- _ . ! ~ * ( )` plus the apostrophe (39). -/
def isUnescapedInURI (c : Char) : Bool :=
  c.isAlphanum || c == Char.ofNat 45 || c == Char.ofNat 95 ||
    c == Char.ofNat 46 || c == Char.ofNat 33 || c == Char.ofNat 126 ||
    c == Char.ofNat 42 || c == Char.ofNat 39 || c == Char.ofNat 40 ||
    c == Char.ofNat 41

/-- Model of the JavaScript builtin `encodeURIComponent`. -/
def encodeURIComponent (s : String) : String :=
  ⟨s.data.flatMap fun c =>
    if isUnescapedInURI c then [c] else (utf8Bytes c).flatMap percentByte⟩

/-- Model of `getAvatarUrl` in `TeachingStaff.tsx`: builds the
ui-avatars URL from the name; the `email` parameter is unused by the
source. -/
def getAvatarUrl (name : String) (email : String) : String :=
  "https://ui-avatars.com/api/?name=" ++ encodeURIComponent name ++
    "&background=random&size=400"

/-- The fixed render-time fallback bio message in `TeachingStaff.tsx`. -/
def bioFallbackMessage : String :=
  "Bio not available for this instructor."

/-- JavaScript `a || b` on strings: the empty string is falsy. -/
def jsOrString (a b : String) : String :=
  if a = "" then b else a

/-- The pair returned by `getInstructorInfo` on a match:
`\x7b bio: matchedInfo.bio || '', title: matchedInfo.title || '' \x7d`. -/
structure InstructorInfo where
  bio : String
  title : String
deriving DecidableEq

/-- Model of `getInstructorInfo` in `TeachingStaff.tsx`: scan the bios
list for the first entry whose normalized name equals the normalized
query name; on a match collapse absent bio/title to the empty string
(JavaScript `|| ''`), otherwise return `null`. -/
def getInstructorInfo (bios : List BioEntry) (name : String) :
    Option InstructorInfo :=
  match bios.find? (fun e => nameEq e.name name) with
  | some e => some ⟨e.bio.getD "", e.title.getD ""⟩
  | none => none

/-- An instructor as the `instructors` mapping in `TeachingStaff.tsx`
produces it for rendering. -/
structure RenderedInstructor where
  name : String
  title : Option String
  email : String
  bio : String
  image : String
deriving DecidableEq

/-- Model of one element of the `instructors` mapping in
`TeachingStaff.tsx`: `title` is `instructorInfo?.title || undefined`,
`bio` is `instructorInfo?.bio || 'Bio not available for this
instructor.'`, `image` comes from `getAvatarUrl`. -/
def renderInstructor (bios : List BioEntry) (p : Person) :
    RenderedInstructor :=
  match getInstructorInfo bios p.name with
  | none =>
    { name := p.name, title := none, email := p.email,
      bio := bioFallbackMessage, image := getAvatarUrl p.name p.email }
  | some info =>
    { name := p.name,
      title := if info.title = "" then none else some info.title,
      email := p.email,
      bio := jsOrString info.bio bioFallbackMessage,
      image := getAvatarUrl p.name p.email }

/-- The condition under which the spec expects the fallback bio: no
entry matches the name, or the (first) matching entry has an empty or
absent bio. -/
def fallbackExpected (bios : List BioEntry) (name : String) : Bool :=
  match bios.find? (fun e => nameEq e.name name) with
  | none => true
  | some e => e.bio.getD "" == ""

end Website

namespace Website

/-- The `instructor` field of the persisted `canvas-staff.json` as the
rendering layer may find it: absent, a single object, or an array
(schema drift across fetch-step versions). -/
inductive InstrField
  | missing : InstrField
  | obj : Person → InstrField
  | arr : List Person → InstrField
deriving DecidableEq

/-- The slice of `canvas-staff.json` the instructor pipeline in
`TeachingStaff.tsx` reads: an optional `instructors` array (`none`
models the field being absent or null) and the legacy `instructor`
field. -/
structure CanvasStaffData where
  instructors : Option (List Person)
  instructor : InstrField
deriving DecidableEq

/-- Model of the `canvasInstructors` shape-normalization chain in
`TeachingStaff.tsx`: prefer the `instructors` array; otherwise accept
`instructor` as an array, wrap a single object into a one-element
array, and fall back to the empty array when absent. -/
def canvasInstructors (d : CanvasStaffData) : List Person :=
  match d.instructors with
  | some l => l
  | none =>
    match d.instructor with
    | InstrField.arr ps => ps
    | InstrField.obj p => [p]
    | InstrField.missing => []

/-- The hardcoded fallback instructor card in `TeachingStaff.tsx`. -/
def fallbackInstructor : RenderedInstructor :=
  { name := "Niloofar Montazeri",
    title := some "Assistant Teaching Professor",
    email := "nimontaz@ucsc.edu",
    bio := "My name is Niloofar Montazeri, and I am your instructor for CSE 140. I am an Assistant Teaching Professor at UC Santa Cruz, with previous experience teaching for seven years at UC Riverside. I hold a PhD in Computer Science from the University of Southern California, specializing in Human Language Technologies.",
    image := "https://images.unsplash.com/photo-1494790108377-be9c29b29330?w=400&h=400&fit=crop" }

/-- Model of the `instructors` binding in `TeachingStaff.tsx`: map the
canvas instructors through the bio lookup, or render the single
hardcoded fallback instructor when the list is empty. -/
def instructorsRendered (bios : List BioEntry) (d : CanvasStaffData) :
    List RenderedInstructor :=
  let ci := canvasInstructors d
  if ci.length > 0 then ci.map (renderInstructor bios)
  else [fallbackInstructor]

end Website

namespace Website

/-- Which stages of `build-with-canvas.sh` ran, and the script's exit
status. -/
structure BuildScriptRun where
  fetchRan : Bool
  fetchWarningShown : Bool
  siteBuildRan : Bool
  exitCode : Nat
deriving DecidableEq

/-- Model of `build-with-canvas.sh`.  The script runs under `set -e`,
so any failing simple command terminates it at once: when the fetch
script exits nonzero the run stops there — the `if [ $? -ne 0 ]`
warning branch below the fetch is unreachable, and `npm run
build:only` is never reached.  Commands inside an `if` condition (the
python3 availability probe) are exempt from `set -e`. -/
def buildWithCanvas (python3Available : Bool) (fetchExit : Nat)
    (buildExit : Nat) : BuildScriptRun :=
  if python3Available = false then
    { fetchRan := false, fetchWarningShown := false,
      siteBuildRan := false, exitCode := 1 }
  else if fetchExit ≠ 0 then
    { fetchRan := true, fetchWarningShown := false,
      siteBuildRan := false, exitCode := fetchExit }
  else
    { fetchRan := true, fetchWarningShown := false,
      siteBuildRan := true, exitCode := buildExit }

end Website

namespace Website

/-- Model of `subscribeToIframeLoad` in `use-iframe-preloader.tsx`:
`loadListeners.push(callback)` appends the callback at the end of the
listener list.  Listeners are modelled as values of any type with
decidable equality (JavaScript `===` on function objects). -/
def subscribeToIframeLoad {α : Type} [DecidableEq α]
    (ls : List α) (c : α) : List α :=
  ls ++ [c]

/-- Model of the unsubscribe closure returned by
`subscribeToIframeLoad`: `indexOf` finds the first occurrence of the
callback and `splice(index, 1)` removes that one element; when the
callback is absent (`indexOf` returns `-1`) nothing happens. -/
def unsubscribeIframeLoad {α : Type} [DecidableEq α]
    (ls : List α) (c : α) : List α :=
  match ls.findIdx? (fun x => decide (x = c)) with
  | some i => ls.eraseIdx i
  | none => ls

/-- Model of `notifyListeners`: `loadListeners.forEach(cb => cb())`
invokes the listeners in list order; the observable is that invocation
sequence. -/
def notifyListeners {α : Type} (ls : List α) : List α :=
  ls

end Website

namespace Website

theorem nameEq_refl (a : String) : nameEq a a = true := by
  simp [nameEq]

theorem nameEq_norm_left (x : String) {a b : String}
    (h : normName a = normName b) : nameEq x a = nameEq x b := by
  unfold nameEq
  rw [h]

theorem nameEq_to_norm {a b : String} (h : nameEq a b = true) :
    normName a = normName b :=
  of_decide_eq_true h

theorem hasMatch_congr (es : List BioEntry) {p q : Person}
    (h : normName p.name = normName q.name) :
    hasMatch es p = hasMatch es q := by
  unfold hasMatch
  congr 1
  funext e
  exact nameEq_norm_left e.name h

theorem hasMatch_append (es fs : List BioEntry) (p : Person) :
    hasMatch (es ++ fs) p = (hasMatch es p || hasMatch fs p) :=
  List.any_append

theorem appendNew_eq_append (ps : List Person) (es : List BioEntry) :
    appendNew es ps = es ++ newEntries es ps := by
  induction ps generalizing es with
  | nil => simp [appendNew, newEntries]
  | cons p ps ih =>
    by_cases hm : hasMatch es p
    · simp [appendNew, newEntries, hm, ih]
    · simp only [appendNew, newEntries, hm, if_neg, Bool.false_eq_true,
        ite_false]
      rw [ih (es ++ [mkFallbackEntry p])]
      simp

theorem mem_newEntries (ps : List Person) (es : List BioEntry)
    (e : BioEntry) (he : e ∈ newEntries es ps) :
    e.title = none ∧ e.bio = some reconcilerFallback ∧
      ∃ p, p ∈ ps ∧ e.name = p.name ∧ hasMatch es p = false := by
  induction ps generalizing es with
  | nil => simp [newEntries] at he
  | cons p ps ih =>
    by_cases hm : hasMatch es p
    · rw [newEntries, if_pos hm] at he
      obtain ⟨h1, h2, q, hq, h3, h4⟩ := ih es he
      exact ⟨h1, h2, q, List.mem_cons_of_mem _ hq, h3, h4⟩
    · rw [newEntries, if_neg hm] at he
      rcases List.mem_cons.mp he with h | h
      · subst h
        exact ⟨rfl, rfl, p, List.mem_cons_self p ps, rfl,
          Bool.not_eq_true _ ▸ hm⟩
      · obtain ⟨h1, h2, q, hq, h3, h4⟩ := ih (es ++ [mkFallbackEntry p]) h
        rw [hasMatch_append, Bool.or_eq_false_iff] at h4
        exact ⟨h1, h2, q, List.mem_cons_of_mem _ hq, h3, h4.1⟩

theorem newEntries_names_sublist (ps : List Person) (es : List BioEntry) :
    ((newEntries es ps).map BioEntry.name).Sublist (ps.map Person.name) := by
  induction ps generalizing es with
  | nil => simp [newEntries]
  | cons p ps ih =>
    by_cases hm : hasMatch es p
    · rw [newEntries, if_pos hm]
      exact List.Sublist.cons _ (ih es)
    · rw [newEntries, if_neg hm]
      exact List.Sublist.cons₂ _ (ih (es ++ [mkFallbackEntry p]))

theorem newEntries_not_matching (ps : List Person) (es : List BioEntry)
    (q : Person) (hq : hasMatch es q = true) :
    ∀ e ∈ newEntries es ps, nameEq e.name q.name = false := by
  intro e he
  obtain ⟨_, _, p, _, hname, hp⟩ := mem_newEntries ps es e he
  by_contra hne
  rw [Bool.not_eq_false] at hne
  have hnorm : normName p.name = normName q.name := by
    rw [← hname]
    exact nameEq_to_norm hne
  rw [hasMatch_congr es hnorm, hq] at hp
  exact Bool.true_eq_false ▸ hp

theorem newEntries_countP_eq_one (ps : List Person) (es : List BioEntry)
    (q : Person) (hq : q ∈ ps) (hm : hasMatch es q = false) :
    (newEntries es ps).countP (fun e => nameEq e.name q.name) = 1 := by
  induction ps generalizing es with
  | nil => simp at hq
  | cons p ps ih =>
    by_cases hp : hasMatch es p
    · rw [newEntries, if_pos hp]
      rcases List.mem_cons.mp hq with h | h
      · subst h
        rw [hm] at hp
        simp at hp
      · exact ih es h hm
    · rw [newEntries, if_neg hp, List.countP_cons]
      by_cases hn : nameEq (mkFallbackEntry p).name q.name = true
      · rw [if_pos hn]
        have hmatch : hasMatch (es ++ [mkFallbackEntry p]) q = true := by
          rw [hasMatch_append, hm, Bool.false_or]
          simp [hasMatch, hn]
        have hzero : (newEntries (es ++ [mkFallbackEntry p]) ps).countP
            (fun e => nameEq e.name q.name) = 0 := by
          rw [List.countP_eq_zero]
          intro a ha
          have := newEntries_not_matching ps (es ++ [mkFallbackEntry p])
            q hmatch a ha
          simp [this]
        omega
      · rw [if_neg hn]
        have hqp : q ∈ ps := by
          rcases List.mem_cons.mp hq with h | h
          · subst h
            exact absurd (nameEq_refl q.name) hn
          · exact h
        have hm2 : hasMatch (es ++ [mkFallbackEntry p]) q = false := by
          rw [hasMatch_append, hm, Bool.false_or]
          simp only [hasMatch, List.any_cons, List.any_nil, Bool.or_false]
          exact Bool.not_eq_true _ ▸ hn
        rw [ih (es ++ [mkFallbackEntry p]) hqp hm2]

theorem hasMatch_appendNew_of_match (ps : List Person) (es : List BioEntry)
    (p : Person) (h : hasMatch es p = true) :
    hasMatch (appendNew es ps) p = true := by
  rw [appendNew_eq_append, hasMatch_append, h, Bool.true_or]

theorem hasMatch_appendNew (ps : List Person) (es : List BioEntry)
    (p : Person) (hp : p ∈ ps) : hasMatch (appendNew es ps) p = true := by
  induction ps generalizing es with
  | nil => simp at hp
  | cons q ps ih =>
    by_cases hm : hasMatch es q
    · rw [appendNew, if_pos hm]
      rcases List.mem_cons.mp hp with h | h
      · subst h
        exact hasMatch_appendNew_of_match ps es p hm
      · exact ih es h
    · rw [appendNew, if_neg hm]
      rcases List.mem_cons.mp hp with h | h
      · subst h
        apply hasMatch_appendNew_of_match
        rw [hasMatch_append, Bool.or_eq_true]
        right
        simp [hasMatch, mkFallbackEntry, nameEq_refl]
      · exact ih (es ++ [mkFallbackEntry q]) h

theorem appendNew_of_all_match (ps : List Person) (es : List BioEntry)
    (h : ∀ p ∈ ps, hasMatch es p = true) : appendNew es ps = es := by
  induction ps with
  | nil => rfl
  | cons p ps ih =>
    rw [appendNew, if_pos (h p (List.mem_cons_self p ps))]
    exact ih fun q hq => h q (List.mem_cons_of_mem _ hq)

end Website

namespace Website

/-- C1: the Reconciler never modifies, removes, or reorders a
pre-existing `BioEntry`: the reconciled entry list extends the prior
one (the prior entries form an initial segment, byte-for-byte,
`name`, `title` and `bio` included), so every prior index holds
exactly the entry it held before.  (Reconciler modelled from the
spec; the fetch script is not among the checked sources.) -/
theorem claim1_reconcile_preserves_existing (inst : List Person)
    (b : BiosRecord) :
    (∃ t, (reconcile inst b).entries = b.entries ++ t) ∧
    ∀ i, i < b.entries.length →
      (reconcile inst b).entries[i]? = b.entries[i]? := by
  constructor
  · exact ⟨newEntries b.entries inst, appendNew_eq_append inst b.entries⟩
  · intro i hi
    show (appendNew b.entries inst)[i]? = b.entries[i]?
    rw [appendNew_eq_append, List.getElem?_append, if_pos hi]

/-- Witness for C1 at a concrete roster and record: index 0 of the
reconciled record still holds the prior entry, although the roster
carries the same name in different case and whitespace. -/
theorem claim1_witness :
    (reconcile [⟨"  ada lovelace ", "ada@ucsc.edu", "7"⟩]
      ⟨[⟨"Ada Lovelace", some "Professor", some "Custom bio"⟩]⟩).entries[0]? =
      some ⟨"Ada Lovelace", some "Professor", some "Custom bio"⟩ := by
  have h := (claim1_reconcile_preserves_existing
    [⟨"  ada lovelace ", "ada@ucsc.edu", "7"⟩]
    ⟨[⟨"Ada Lovelace", some "Professor", some "Custom bio"⟩]⟩).2 0 (by decide)
  rw [h]
  rfl

/-- C2: reconciliation appends, after the untouched prior entries,
exactly the entries for unmatched instructors: every appended entry
has no title, the fixed fallback bio, and a name copied verbatim from
an unmatched roster person; an unmatched instructor gets exactly one
appended entry under its normalized name; a matched instructor (even
matched only under normalization) gets none; the appended names
respect the roster order; and since `reconcile` is a pure function of
`(inst, b)`, the same pair always yields the same appended entries.
(Reconciler modelled from the spec.) -/
theorem claim2_reconcile_appends_unmatched (inst : List Person)
    (b : BiosRecord) :
    (reconcile inst b).entries = b.entries ++ newEntries b.entries inst ∧
    (∀ e ∈ newEntries b.entries inst,
      e.title = none ∧ e.bio = some reconcilerFallback ∧
        ∃ p, p ∈ inst ∧ e.name = p.name ∧ hasMatch b.entries p = false) ∧
    (∀ p ∈ inst, hasMatch b.entries p = false →
      (newEntries b.entries inst).countP
        (fun e => nameEq e.name p.name) = 1) ∧
    (∀ p ∈ inst, hasMatch b.entries p = true →
      ∀ e ∈ newEntries b.entries inst, nameEq e.name p.name = false) ∧
    ((newEntries b.entries inst).map BioEntry.name).Sublist
      (inst.map Person.name) := by
  refine ⟨appendNew_eq_append inst b.entries, ?_, ?_, ?_, ?_⟩
  · exact fun e he => mem_newEntries inst b.entries e he
  · exact fun p hp hm => newEntries_countP_eq_one inst b.entries p hp hm
  · exact fun p _ hm => newEntries_not_matching inst b.entries p hm
  · exact newEntries_names_sublist inst b.entries

/-- Witness for C2: with one prior entry for "ada lovelace", the
roster pair (Ada Lovelace — matched under normalization — and Alan
Turing — unmatched) yields exactly one appended entry under Alan
Turing's normalized name. -/
theorem claim2_witness :
    (newEntries [⟨"ada lovelace", some "Prof", some "b"⟩]
      [⟨"Ada Lovelace", "a@e", "1"⟩, ⟨"Alan Turing", "t@e", "2"⟩]).countP
      (fun e => nameEq e.name (Person.mk "Alan Turing" "t@e" "2").name)
      = 1 :=
  (claim2_reconcile_appends_unmatched
    [⟨"Ada Lovelace", "a@e", "1"⟩, ⟨"Alan Turing", "t@e", "2"⟩]
    ⟨[⟨"ada lovelace", some "Prof", some "b"⟩]⟩).2.2.1
    ⟨"Alan Turing", "t@e", "2"⟩ (by decide) (by decide)

/-- C6: reconciliation is idempotent — a second run with the same
instructors on the output of the first changes nothing.  (Reconciler
modelled from the spec.) -/
theorem claim6_reconcile_idempotent (inst : List Person) (b : BiosRecord) :
    reconcile inst (reconcile inst b) = reconcile inst b := by
  show (⟨appendNew (appendNew b.entries inst) inst⟩ : BiosRecord) = _
  have h : appendNew (appendNew b.entries inst) inst =
      appendNew b.entries inst :=
    appendNew_of_all_match inst _ fun p hp =>
      hasMatch_appendNew inst b.entries p hp
  rw [h]
  rfl

end Website

namespace Website

/-- C4: name matching in the lookup is case-insensitive and
whitespace-trimmed.  The roster name with stray whitespace matches the
stored entry name, and in general the comparison holds exactly when
the trimmed, case-folded forms of the two names coincide — whether
the normalization is read as lower-case-then-trim (as the source
computes it) or trim-then-case-fold (as the spec words it). -/
theorem claim4_name_matching :
    nameEq "  Jane Doe " "Jane Doe" = true ∧
    (∀ a b : String, nameEq a b = true ↔ normName a = normName b) ∧
    (∀ a b : String, nameEq a b = true ↔ trimThenFold a = trimThenFold b) := by
  refine ⟨by decide, fun a b => ?_, fun a b => ?_⟩
  · unfold nameEq
    exact decide_eq_true_iff
  · rw [← normName_eq_trimThenFold a, ← normName_eq_trimThenFold b]
    unfold nameEq
    exact decide_eq_true_iff

/-- C5: the lookup scans the bios entries in file order and the first
entry whose normalized name matches wins; later entries — including
duplicates under the same normalized name — are never selected. -/
theorem claim5_first_match_wins (l1 l2 : List BioEntry) (e : BioEntry)
    (n : String) (he : nameEq e.name n = true)
    (h1 : ∀ d ∈ l1, nameEq d.name n = false) :
    (l1 ++ e :: l2).find? (fun d => nameEq d.name n) = some e ∧
    getInstructorInfo (l1 ++ e :: l2) n =
      some ⟨e.bio.getD "", e.title.getD ""⟩ := by
  have hfind : (l1 ++ e :: l2).find? (fun d => nameEq d.name n) = some e := by
    rw [List.find?_append]
    have hnone : l1.find? (fun d => nameEq d.name n) = none :=
      List.find?_eq_none.mpr fun d hd => by simp [h1 d hd]
    rw [hnone, Option.none_or]
    exact List.find?_cons_of_pos l2
      (show (fun d => nameEq d.name n) e = true from he)
  exact ⟨hfind, by rw [getInstructorInfo, hfind]⟩

/-- Witness for C5: two entries share the normalized name
"ada lovelace"; the lookup returns the first one in file order. -/
theorem claim5_witness :
    getInstructorInfo
      [⟨"Grace Hopper", none, none⟩,
       ⟨" ADA LOVELACE ", some "Professor", some "First bio"⟩,
       ⟨"Ada Lovelace", none, some "Second bio"⟩] "ada lovelace" =
      some ⟨"First bio", "Professor"⟩ :=
  (claim5_first_match_wins [⟨"Grace Hopper", none, none⟩]
    [⟨"Ada Lovelace", none, some "Second bio"⟩]
    ⟨" ADA LOVELACE ", some "Professor", some "First bio"⟩
    "ada lovelace" (by decide) (by decide)).2

/-- C3 as stated is false: a stored bio whose text happens to equal
the fixed fallback message makes the rendered bio equal the fallback
message although a matching entry with a nonempty bio exists.  This
closed counterexample exhibits that input. -/
theorem claim3_counterexample :
    ¬(((renderInstructor [⟨"A", none, some bioFallbackMessage⟩]
        ⟨"A", "a@e", "1"⟩).bio = bioFallbackMessage) ↔
      fallbackExpected [⟨"A", none, some bioFallbackMessage⟩] "A" = true) := by
  decide

/-- C3 amended: the rendered bio equals the fixed fallback message
exactly when no bios entry matches the instructor's normalized name,
or the first matching entry's bio is empty or absent, or that entry's
stored bio is itself literally the fallback text; and when no entry
matches, the rendered title is absent. -/
theorem claim3_amended_fallback (bios : List BioEntry) (p : Person) :
    ((renderInstructor bios p).bio = bioFallbackMessage ↔
      (fallbackExpected bios p.name = true ∨
        ∃ e, bios.find? (fun d => nameEq d.name p.name) = some e ∧
          e.bio.getD "" = bioFallbackMessage)) ∧
    (bios.find? (fun d => nameEq d.name p.name) = none →
      (renderInstructor bios p).title = none) := by
  cases hf : bios.find? (fun d => nameEq d.name p.name) with
  | none =>
    refine ⟨⟨fun _ => Or.inl (by rw [fallbackExpected, hf]), fun _ => ?_⟩,
      fun _ => ?_⟩
    · simp [renderInstructor, getInstructorInfo, hf]
    · simp [renderInstructor, getInstructorInfo, hf]
  | some e =>
    have hfe : fallbackExpected bios p.name = (e.bio.getD "" == "") := by
      rw [fallbackExpected, hf]
    have hbio : (renderInstructor bios p).bio =
        jsOrString (e.bio.getD "") bioFallbackMessage := by
      simp [renderInstructor, getInstructorInfo, hf]
    refine ⟨?_, fun hnone => Option.noConfusion hnone⟩
    by_cases hb : e.bio.getD "" = ""
    · refine ⟨fun _ => Or.inl ?_, fun _ => ?_⟩
      · rw [hfe, hb]
        rfl
      · rw [hbio, jsOrString, if_pos hb]
    · refine ⟨fun hmsg => ?_, fun hor => ?_⟩
      · rw [hbio, jsOrString, if_neg hb] at hmsg
        exact Or.inr ⟨e, rfl, hmsg⟩
      · rw [hbio, jsOrString, if_neg hb]
        rcases hor with hfx | ⟨d, hd, hdb⟩
        · rw [hfe, beq_iff_eq] at hfx
          exact absurd hfx hb
        · cases hd
          exact hdb

/-- Witness for C3 (amended): with an empty bios list nothing matches,
so the rendered bio is the fallback message and the rendered title is
absent. -/
theorem claim3_witness :
    (renderInstructor [] ⟨"X", "x@e", "1"⟩).bio = bioFallbackMessage ∧
    (renderInstructor [] ⟨"X", "x@e", "1"⟩).title = none :=
  ⟨(claim3_amended_fallback [] ⟨"X", "x@e", "1"⟩).1.mpr
      (Or.inl (by decide)),
    (claim3_amended_fallback [] ⟨"X", "x@e", "1"⟩).2 rfl⟩

end Website

namespace Website

/-- C7 names intended behavior the script does not implement: because
`build-with-canvas.sh` enables `set -e`, a nonzero exit from the fetch
script terminates the whole script with that status — the site build
step never runs and even the script's own fetch-failure warning is
unreachable — although the script's comments promise to continue the
build with existing data.  This theorem evaluates the model at the
failing input (fetch exits 1). -/
theorem claim7_build_aborts_on_fetch_failure :
    (buildWithCanvas true 1 0).siteBuildRan = false ∧
    (buildWithCanvas true 1 0).fetchWarningShown = false ∧
    (buildWithCanvas true 1 0).exitCode = 1 ∧
    (buildWithCanvas true 0 0).siteBuildRan = true := by
  decide

/-- C8: the rendering layer tolerates every shape of the persisted
roster's instructor field — an `instructors` array is used as is, a
single `instructor` object becomes a one-element sequence, an
`instructor` array is used as is, absence becomes the empty sequence —
and when the normalized sequence is empty the page renders exactly the
one hardcoded fallback instructor. -/
theorem claim8_shape_handling :
    (∀ (l : List Person) (i : InstrField),
      canvasInstructors ⟨some l, i⟩ = l) ∧
    (∀ p : Person, canvasInstructors ⟨none, InstrField.obj p⟩ = [p]) ∧
    (∀ ps : List Person, canvasInstructors ⟨none, InstrField.arr ps⟩ = ps) ∧
    canvasInstructors ⟨none, InstrField.missing⟩ = [] ∧
    (∀ (bios : List BioEntry) (d : CanvasStaffData),
      canvasInstructors d = [] →
        instructorsRendered bios d = [fallbackInstructor]) := by
  refine ⟨fun l i => rfl, fun p => rfl, fun ps => rfl, rfl, ?_⟩
  intro bios d h
  simp [instructorsRendered, h]

/-- Witness for C8: with the `instructors` field and the `instructor`
field both absent the page renders exactly the hardcoded fallback
instructor. -/
theorem claim8_witness :
    instructorsRendered [] ⟨none, InstrField.missing⟩ =
      [fallbackInstructor] :=
  claim8_shape_handling.2.2.2.2 [] ⟨none, InstrField.missing⟩ rfl

/-- C9: the generated avatar URL depends only on the name — for any
name and any two emails, `getAvatarUrl` returns the same URL. -/
theorem claim9_avatar_independent_of_email
    (name e1 e2 : String) : getAvatarUrl name e1 = getAvatarUrl name e2 :=
  rfl

theorem unsubscribeIframeLoad_eq_erase {α : Type} [DecidableEq α]
    (ls : List α) (c : α) : unsubscribeIframeLoad ls c = ls.erase c := by
  induction ls with
  | nil => rfl
  | cons a t ih =>
    unfold unsubscribeIframeLoad
    rw [List.findIdx?_cons]
    by_cases ha : a = c
    · rw [if_pos (decide_eq_true ha), ha, List.erase_cons_head]
      rfl
    · rw [if_neg (by simp [ha]), List.findIdx?_start_succ,
        List.erase_cons_tail (by simp [ha])]
      cases h : t.findIdx? (fun x => decide (x = c)) with
      | none =>
        have ih2 : t = t.erase c := by
          rw [← ih, unsubscribeIframeLoad, h]
        simp only [h, Option.map_none']
        exact congrArg (List.cons a) ih2
      | some i =>
        have ih2 : t.eraseIdx i = t.erase c := by
          rw [← ih, unsubscribeIframeLoad, h]
        simp only [h, Option.map_some']
        rw [List.eraseIdx_cons_succ]
        exact congrArg (List.cons a) ih2

end Website

namespace Website

/-- C10: subscribing a callback and then running the returned
unsubscribe restores the listener list to its prior contents: the pair
is a permutation of the prior list, and exactly the prior list when
the callback was not already registered; unsubscribing removes exactly
one occurrence (the first) of the callback and is a no-op when the
callback is absent; hence a later `notifyListeners` invokes the same
callbacks as before the subscription. -/
theorem claim10_subscribe_unsubscribe {α : Type} [DecidableEq α]
    (ls : List α) (c : α) :
    (unsubscribeIframeLoad (subscribeToIframeLoad ls c) c).Perm ls ∧
    (c ∉ ls → unsubscribeIframeLoad (subscribeToIframeLoad ls c) c = ls) ∧
    (c ∉ ls → unsubscribeIframeLoad ls c = ls) ∧
    (c ∈ ls → (unsubscribeIframeLoad ls c).count c = ls.count c - 1 ∧
      ∀ x, x ≠ c →
        (unsubscribeIframeLoad ls c).count x = ls.count x) ∧
    (notifyListeners
      (unsubscribeIframeLoad (subscribeToIframeLoad ls c) c)).Perm
      (notifyListeners ls) := by
  have hperm :
      (unsubscribeIframeLoad (subscribeToIframeLoad ls c) c).Perm ls := by
    rw [unsubscribeIframeLoad_eq_erase, subscribeToIframeLoad]
    by_cases h : c ∈ ls
    · rw [List.erase_append_left _ h]
      exact ((ls.erase c).perm_append_singleton c).trans
        (List.perm_cons_erase h).symm
    · rw [List.erase_append_right _ h, List.erase_cons_head,
        List.append_nil]
  have hfresh : c ∉ ls →
      unsubscribeIframeLoad (subscribeToIframeLoad ls c) c = ls := by
    intro h
    rw [unsubscribeIframeLoad_eq_erase, subscribeToIframeLoad,
      List.erase_append_right _ h, List.erase_cons_head, List.append_nil]
  refine ⟨hperm, hfresh, ?_, ?_, hperm⟩
  · intro h
    rw [unsubscribeIframeLoad_eq_erase]
    exact List.erase_of_not_mem h
  · intro h
    rw [unsubscribeIframeLoad_eq_erase]
    constructor
    · exact List.count_erase_self c ls
    · intro x hx
      exact List.count_erase_of_ne hx ls

/-- Witness for C10 at concrete listener lists: unsubscribing after a
fresh subscription restores the exact prior list, and unsubscribing an
absent callback changes nothing. -/
theorem claim10_witness :
    unsubscribeIframeLoad (subscribeToIframeLoad [0, 1] 2) 2 = [0, 1] ∧
    unsubscribeIframeLoad [0, 1] 2 = [0, 1] :=
  ⟨(claim10_subscribe_unsubscribe [0, 1] 2).2.1 (by decide),
    (claim10_subscribe_unsubscribe [0, 1] 2).2.2.1 (by decide)⟩

end Website
